import Mathlib

/-!
Shallow embedding of `src/libstd/sys/unix/args.rs`: global initialization and
retrieval of command line arguments, exposed through the double-ended
iterators `Args` (owned `OsString` values) and `ArgsRefs` (borrowed `&OsStr`
views), plus the captured-global backend (`mod imp` for linux-like targets)
and the Objective-C object-model backend (`mod imp` for iOS).

Modelling conventions:
- pointers are integers (`Int`), with `0` playing the role of the null pointer;
  `argv.offset(k)` is integer addition;
- the argument memory is a function `Mem : Int → List Nat` mapping an argv
  slot address to the byte string of the C string stored there
  (`CStr::from_ptr(p).to_bytes()`); both `OsStringExt::from_vec` (which copies
  the bytes) and `OsStrExt::from_bytes` (which borrows them) preserve the byte
  sequence, so a yielded element is represented by its byte list;
- `isize` values are `Int`; the `as usize` cast is reinterpretation modulo
  `2 ^ 64` (a 64-bit target);
- stateful iterator methods become functions `state → output × state`.
-/

namespace UnixArgs

/-- Memory holding the argument vector: the byte string of the C string found
at each argv slot address. -/
abbrev Mem : Type := Int → List Nat

/-- The `as usize` cast of an `isize` value: two's-complement reinterpretation
of a 64-bit signed integer as unsigned. -/
def isizeAsUsize (i : Int) : Nat := (i % (2 : Int) ^ 64).toNat

/-- The public owned iterator: `pub struct Args { argc: isize, argv: *const *const u8, .. }`
(the `PhantomData` marker field has no runtime content and is omitted). -/
structure Args where
  argc : Int
  argv : Int
deriving DecidableEq, Repr

/-- The borrowed iterator: `pub struct ArgsRefs<'a> { argc: isize, argv: *const *const u8, .. }`. -/
structure ArgsRefs where
  argc : Int
  argv : Int
deriving DecidableEq, Repr

/-- The code of `<Args as Iterator>::next`: if `argc != 0`, read the C string at
`*argv`, copy its bytes into an owned value, decrement `argc`, advance `argv`
by one slot, and return the value; otherwise return `None`. -/
def Args.next (mem : Mem) (a : Args) : Option (List Nat) × Args :=
  if a.argc ≠ 0 then
    (some (mem a.argv), ⟨a.argc - 1, a.argv + 1⟩)
  else
    (none, a)

/-- The code of `<Args as Iterator>::size_hint`: `(argc as usize, Some(argc as usize))`. -/
def Args.size_hint (a : Args) : Nat × Option Nat :=
  (isizeAsUsize a.argc, some (isizeAsUsize a.argc))

/-- The code of `<Args as ExactSizeIterator>::len`: `argc as usize`. -/
def Args.len (a : Args) : Nat := isizeAsUsize a.argc

/-- The code of `<Args as DoubleEndedIterator>::next_back`: if `argc != 0`,
first decrement `argc`, then read the C string at `*argv.offset(argc)` (the new
`argc`) and return its bytes as an owned value; otherwise return `None`. -/
def Args.next_back (mem : Mem) (a : Args) : Option (List Nat) × Args :=
  if a.argc ≠ 0 then
    (some (mem (a.argv + (a.argc - 1))), ⟨a.argc - 1, a.argv⟩)
  else
    (none, a)

/-- The code of `<ArgsRefs as Iterator>::next`: same cursor movement as
`Args::next`, but the yielded element borrows the bytes instead of copying. -/
def ArgsRefs.next (mem : Mem) (r : ArgsRefs) : Option (List Nat) × ArgsRefs :=
  if r.argc ≠ 0 then
    (some (mem r.argv), ⟨r.argc - 1, r.argv + 1⟩)
  else
    (none, r)

/-- The code of `<ArgsRefs as Iterator>::size_hint`. -/
def ArgsRefs.size_hint (r : ArgsRefs) : Nat × Option Nat :=
  (isizeAsUsize r.argc, some (isizeAsUsize r.argc))

/-- The code of `<ArgsRefs as ExactSizeIterator>::len`. -/
def ArgsRefs.len (r : ArgsRefs) : Nat := isizeAsUsize r.argc

/-- The code of `<ArgsRefs as DoubleEndedIterator>::next_back`. -/
def ArgsRefs.next_back (mem : Mem) (r : ArgsRefs) : Option (List Nat) × ArgsRefs :=
  if r.argc ≠ 0 then
    (some (mem (r.argv + (r.argc - 1))), ⟨r.argc - 1, r.argv⟩)
  else
    (none, r)

/-- The code of `Args::as_refs`: build an `ArgsRefs` with the same `argc` and
`argv` fields, from a shared (immutable) borrow of the `Args`. -/
def Args.as_refs (a : Args) : ArgsRefs := ⟨a.argc, a.argv⟩

/-- Repeatedly calling `ArgsRefs::next` and collecting the yielded values until
the first `None`, with an explicit fuel bound on the number of calls.  This is
`Iterator::collect` on `ArgsRefs`; for a state with `0 ≤ argc` the loop stops
by itself after exactly `argc` yields (theorem `collectN_spec`), so fuel
`argc.toNat` reproduces the unbounded loop. -/
def ArgsRefs.collectN (mem : Mem) : Nat → ArgsRefs → List (List Nat)
  | 0, _ => []
  | n + 1, r =>
    match ArgsRefs.next mem r with
    | (some v, r') => v :: ArgsRefs.collectN mem n r'
    | (none, _) => []

/-- The code of `Args::inner_debug`: `self.as_refs().collect()`. -/
def Args.inner_debug (mem : Mem) (a : Args) : List (List Nat) :=
  ArgsRefs.collectN mem a.argc.toNat a.as_refs

/-- The raw argument store of the captured-global backend: the
`static mut ARGC: isize` and `static mut ARGV: *const *const u8` globals of
`mod imp`.  `ARGV = 0` is the null pointer. -/
structure Store where
  ARGC : Int
  ARGV : Int
deriving DecidableEq, Repr

namespace imp

/-- The code of `imp::init` (captured-global backend): under the lock, store
the startup `argc` and `argv` into the globals. -/
def init (argc : Int) (argv : Int) (_s : Store) : Store := ⟨argc, argv⟩

/-- The code of `imp::cleanup` (captured-global backend): under the lock, reset
`ARGC` to `0` and `ARGV` to the null pointer. -/
def cleanup (_s : Store) : Store := ⟨0, 0⟩

/-- The code of `imp::args` (captured-global backend): under the lock, build an
`Args` iterator from the current values of the globals. -/
def args (s : Store) : Args := ⟨s.ARGC, s.ARGV⟩

end imp

/-- The public `init` entry point, forwarding to the backend. -/
def init (argc : Int) (argv : Int) (s : Store) : Store := imp.init argc argv s

/-- The public `cleanup` entry point, forwarding to the backend. -/
def cleanup (s : Store) : Store := imp.cleanup s

/-- The public accessor `args()`, forwarding to the backend. -/
def args (s : Store) : Args := imp.args s

/-- Whether a byte is a UTF-8 continuation byte, `0x80 ..= 0xBF`. -/
def isCont (b : Nat) : Bool := 0x80 ≤ b && b ≤ 0xBF

/-- Admissible range of the first continuation byte of a three-byte UTF-8
sequence with leading byte `b` (excludes overlong forms and surrogates). -/
def cont3 (b b1 : Nat) : Bool :=
  if b = 0xE0 then 0xA0 ≤ b1 && b1 ≤ 0xBF
  else if b = 0xED then 0x80 ≤ b1 && b1 ≤ 0x9F
  else isCont b1

/-- Admissible range of the first continuation byte of a four-byte UTF-8
sequence with leading byte `b` (excludes overlong forms and values beyond
`U+10FFFF`). -/
def cont4 (b b1 : Nat) : Bool :=
  if b = 0xF0 then 0x90 ≤ b1 && b1 ≤ 0xBF
  else if b = 0xF4 then 0x80 ≤ b1 && b1 ≤ 0x8F
  else isCont b1

/-- Modelled from the spec: validity of a byte sequence as UTF-8 text, the
check performed by `str::from_utf8` (library code outside `src/`), whose
`unwrap` in the iOS backend is the fatal abort on non-text bytes.  A sequence
is valid when it parses as a concatenation of well-formed UTF-8 encodings of
Unicode scalar values. -/
def utf8Valid : List Nat → Bool
  | [] => true
  | b :: rest =>
    if b ≤ 0x7F then utf8Valid rest
    else if 0xC2 ≤ b && b ≤ 0xDF then
      match rest with
      | b1 :: r => isCont b1 && utf8Valid r
      | [] => false
    else if 0xE0 ≤ b && b ≤ 0xEF then
      match rest with
      | b1 :: b2 :: r => cont3 b b1 && isCont b2 && utf8Valid r
      | _ => false
    else if 0xF0 ≤ b && b ≤ 0xF4 then
      match rest with
      | b1 :: b2 :: b3 :: r => cont4 b b1 && isCont b2 && isCont b3 && utf8Valid r
      | _ => false
    else false

/-- The external Objective-C runtime as seen by the iOS backend: the foreign
functions `sel_registerName`, `objc_getClass`, `objc_msgSend` and
`objc_msgSend_ul`, plus the memory read `CStr::from_ptr(p).to_bytes()` on a
returned pointer.  `Sel` and `NsId` values are bare numbers; `mem::transmute`
from `NsId` to `usize` is the identity on this representation. -/
structure ObjcEnv where
  sel_registerName : String → Nat
  objc_getClass : String → Nat
  objc_msgSend : Nat → Nat → Nat
  objc_msgSend_ul : Nat → Nat → Nat → Nat
  cstrBytes : Nat → List Nat

namespace iosImp

/-- The dispatch chain of `imp::args` for iOS obtaining the arguments
collection: `objc_msgSend(objc_msgSend(objc_getClass("NSProcessInfo"),
processInfo_sel), arguments_sel)`. -/
def argsObj (env : ObjcEnv) : Nat :=
  env.objc_msgSend
    (env.objc_msgSend (env.objc_getClass "NSProcessInfo")
      (env.sel_registerName "processInfo"))
    (env.sel_registerName "arguments")

/-- The element count requested from the arguments collection:
`mem::transmute(objc_msgSend(args, count_sel))`. -/
def cnt (env : ObjcEnv) : Nat :=
  env.objc_msgSend (argsObj env) (env.sel_registerName "count")

/-- The byte string of argument `i`:
`CStr::from_ptr(objc_msgSend(objc_msgSend_ul(args, objectAtIndex_sel, i), UTF8String_sel)).to_bytes()`. -/
def argBytes (env : ObjcEnv) (i : Nat) : List Nat :=
  env.cstrBytes
    (env.objc_msgSend
      (env.objc_msgSend_ul (argsObj env) (env.sel_registerName "objectAtIndex:") i)
      (env.sel_registerName "UTF8String"))

/-- The `for i in 0..cnt` loop of `imp::args` for iOS, pushing
`OsString::from(str::from_utf8(bytes).unwrap())` for each index: `k` iterations
remain, the next index is `i`; `none` is the abort raised by `unwrap` on
non-UTF-8 bytes. -/
def loop (env : ObjcEnv) : Nat → Nat → Option (List (List Nat))
  | _, 0 => some []
  | i, k + 1 =>
    let bytes := argBytes env i
    if utf8Valid bytes then
      match loop env (i + 1) k with
      | some rest => some (bytes :: rest)
      | none => none
    else
      none

/-- The code of `imp::args` for iOS: run the dispatch chain, then collect the
`cnt` arguments eagerly (indices `0 .. cnt - 1`) into an owned sequence;
`none` is the abort on non-text bytes. -/
def args (env : ObjcEnv) : Option (List (List Nat)) :=
  loop env 0 (cnt env)

end iosImp

/-- A direction of consumption of the double-ended iterators: a call to
`next` (front) or to `next_back` (back). -/
inductive Dir where
  | front : Dir
  | back : Dir
deriving DecidableEq, Repr

/-- Dispatch one call on an `Args` iterator in the given direction. -/
def Args.step (mem : Mem) (a : Args) : Dir → Option (List Nat) × Args
  | Dir.front => Args.next mem a
  | Dir.back => Args.next_back mem a

/-- Run a sequence of `next`/`next_back` calls on an `Args` iterator,
returning the list of outputs and the final state. -/
def Args.run (mem : Mem) : List Dir → Args → List (Option (List Nat)) × Args
  | [], a => ([], a)
  | d :: ds, a =>
    let p := Args.step mem a d
    let q := Args.run mem ds p.2
    (p.1 :: q.1, q.2)

/-- Dispatch one call on an `ArgsRefs` iterator in the given direction. -/
def ArgsRefs.step (mem : Mem) (r : ArgsRefs) : Dir → Option (List Nat) × ArgsRefs
  | Dir.front => ArgsRefs.next mem r
  | Dir.back => ArgsRefs.next_back mem r

/-- Run a sequence of `next`/`next_back` calls on an `ArgsRefs` iterator. -/
def ArgsRefs.run (mem : Mem) : List Dir → ArgsRefs → List (Option (List Nat)) × ArgsRefs
  | [], r => ([], r)
  | d :: ds, r =>
    let p := ArgsRefs.step mem r d
    let q := ArgsRefs.run mem ds p.2
    (p.1 :: q.1, q.2)

/-- The memory of an argument-vector snapshot laid out at base address `0`:
slot `i` holds the bytes of the `i`-th argument. -/
def memOf (l : List (List Nat)) : Mem := fun i =>
  if 0 ≤ i then l.getD i.toNat [] else []

/-- The iterator freshly obtained over a snapshot of `l.length` arguments laid
out at base address `0` (the state built by `imp::args` after
`init(l.length, 0)`). -/
def Args.ofSnapshot (l : List (List Nat)) : Args := ⟨(l.length : Int), 0⟩

/-- Well-formedness of an iterator state over the snapshot `l`: the cursor
window `[argv, argv + argc)` lies inside the snapshot. -/
def Args.valid (a : Args) (l : List (List Nat)) : Prop :=
  0 ≤ a.argc ∧ 0 ≤ a.argv ∧ a.argv + a.argc ≤ (l.length : Int)

/-- The elements an iterator state has yet to yield: the window
`[argv, argv + argc)` of the snapshot. -/
def Args.remaining (a : Args) (l : List (List Nat)) : List (List Nat) :=
  (l.drop a.argv.toNat).take a.argc.toNat

/-- One step of the specification-level double-ended sequence: a front call
takes the head, a back call takes the last element; an empty sequence yields
`none` and stays empty. -/
def dStep : Dir → List α → Option α × List α
  | Dir.front, s => (s.head?, s.tail)
  | Dir.back, s => (s.getLast?, s.dropLast)

/-- Run a call sequence on the specification-level double-ended sequence. -/
def dRun : List Dir → List α → List (Option α) × List α
  | [], s => ([], s)
  | d :: ds, s =>
    let p := dStep d s
    let q := dRun ds p.2
    (p.1 :: q.1, q.2)

/-- The outputs of a call trace produced by the front calls, in call order. -/
def frontOuts (ds : List Dir) (os : List β) : List β :=
  (ds.zip os).filterMap fun p => if p.1 = Dir.front then some p.2 else none

/-- The outputs of a call trace produced by the back calls, in call order. -/
def backOuts (ds : List Dir) (os : List β) : List β :=
  (ds.zip os).filterMap fun p => if p.1 = Dir.back then some p.2 else none

/-! ### Simulation of the cursor iterators by the double-ended sequence -/

theorem valid_ofSnapshot (l : List (List Nat)) : (Args.ofSnapshot l).valid l := by
  refine ⟨?_, ?_, ?_⟩ <;> simp [Args.ofSnapshot]

theorem remaining_ofSnapshot (l : List (List Nat)) : (Args.ofSnapshot l).remaining l = l := by
  simp [Args.ofSnapshot, Args.remaining]

theorem remaining_length {a : Args} {l : List (List Nat)} (h : a.valid l) :
    (a.remaining l).length = a.argc.toNat := by
  obtain ⟨hc, hp, hpc⟩ := h
  simp only [Args.remaining, List.length_take, List.length_drop]
  omega

theorem memOf_eq_getElem {l : List (List Nat)} {i : Int} (h0 : 0 ≤ i)
    (h1 : i.toNat < l.length) : memOf l i = l[i.toNat] := by
  simp [memOf, h0, List.getElem?_eq_getElem h1]

theorem Args.next_sim {l : List (List Nat)} {a : Args} (h : a.valid l) :
    (Args.next (memOf l) a).1 = (a.remaining l).head?
    ∧ (Args.next (memOf l) a).2.valid l
    ∧ (Args.next (memOf l) a).2.remaining l = (a.remaining l).tail := by
  obtain ⟨hc, hp, hpc⟩ := h
  by_cases h0 : a.argc = 0
  · have hrem : a.remaining l = [] := by simp [Args.remaining, h0]
    simp only [Args.next, h0]
    simp [hrem]
    exact ⟨hc, hp, hpc⟩
  · have hPlt : a.argv.toNat < l.length := by omega
    have hnext : Args.next (memOf l) a = (some (memOf l a.argv), ⟨a.argc - 1, a.argv + 1⟩) := by
      simp [Args.next, h0]
    have e1 : (a.argc - 1).toNat = a.argc.toNat - 1 := by omega
    have e2 : (a.argv + 1).toNat = a.argv.toNat + 1 := by omega
    refine ⟨?_, ?_, ?_⟩
    · rw [hnext]
      show some (memOf l a.argv) = (a.remaining l).head?
      rw [memOf_eq_getElem hp hPlt]
      rw [Args.remaining, List.head?_take, if_neg (by omega), List.head?_drop,
        List.getElem?_eq_getElem hPlt]
    · rw [hnext]
      refine ⟨?_, ?_, ?_⟩
      · show (0 : Int) ≤ a.argc - 1
        omega
      · show (0 : Int) ≤ a.argv + 1
        omega
      · show a.argv + 1 + (a.argc - 1) ≤ (l.length : Int)
        omega
    · rw [hnext]
      show Args.remaining ⟨a.argc - 1, a.argv + 1⟩ l = (a.remaining l).tail
      rw [Args.remaining, Args.remaining, e1, e2, ← List.drop_one, List.drop_take,
        List.drop_drop]

theorem Args.back_sim {l : List (List Nat)} {a : Args} (h : a.valid l) :
    (Args.next_back (memOf l) a).1 = (a.remaining l).getLast?
    ∧ (Args.next_back (memOf l) a).2.valid l
    ∧ (Args.next_back (memOf l) a).2.remaining l = (a.remaining l).dropLast := by
  obtain ⟨hc, hp, hpc⟩ := h
  by_cases h0 : a.argc = 0
  · have hrem : a.remaining l = [] := by simp [Args.remaining, h0]
    simp only [Args.next_back, h0]
    simp [hrem]
    exact ⟨hc, hp, hpc⟩
  · have hIlt : (a.argv + (a.argc - 1)).toNat < l.length := by omega
    have hI0 : 0 ≤ a.argv + (a.argc - 1) := by omega
    have hback : Args.next_back (memOf l) a
        = (some (memOf l (a.argv + (a.argc - 1))), ⟨a.argc - 1, a.argv⟩) := by
      simp [Args.next_back, h0]
    have e1 : (a.argc - 1).toNat = a.argc.toNat - 1 := by omega
    refine ⟨?_, ?_, ?_⟩
    · rw [hback]
      show some (memOf l (a.argv + (a.argc - 1))) = (a.remaining l).getLast?
      rw [Args.remaining, List.getLast?_take, if_neg (by omega), List.getElem?_drop]
      have e2 : a.argv.toNat + (a.argc.toNat - 1) = (a.argv + (a.argc - 1)).toNat := by omega
      rw [e2, List.getElem?_eq_getElem hIlt, Option.or_some, memOf_eq_getElem hI0 hIlt]
    · rw [hback]
      refine ⟨?_, ?_, ?_⟩
      · show (0 : Int) ≤ a.argc - 1
        omega
      · show (0 : Int) ≤ a.argv
        omega
      · show a.argv + (a.argc - 1) ≤ (l.length : Int)
        omega
    · rw [hback]
      show Args.remaining ⟨a.argc - 1, a.argv⟩ l = (a.remaining l).dropLast
      rw [Args.remaining, Args.remaining, e1]
      rw [List.dropLast_eq_take, List.length_take, List.length_drop,
        Nat.min_eq_left (by omega), List.take_take, Nat.min_eq_left (by omega)]

theorem Args.step_sim {l : List (List Nat)} {a : Args} (h : a.valid l) (d : Dir) :
    (Args.step (memOf l) a d).1 = (dStep d (a.remaining l)).1
    ∧ (Args.step (memOf l) a d).2.valid l
    ∧ (Args.step (memOf l) a d).2.remaining l = (dStep d (a.remaining l)).2 := by
  cases d
  · simpa [Args.step, dStep] using Args.next_sim h
  · simpa [Args.step, dStep] using Args.back_sim h

theorem Args.run_sim {l : List (List Nat)} (ds : List Dir) (a : Args) (h : a.valid l) :
    (Args.run (memOf l) ds a).1 = (dRun ds (a.remaining l)).1
    ∧ (Args.run (memOf l) ds a).2.valid l
    ∧ (Args.run (memOf l) ds a).2.remaining l = (dRun ds (a.remaining l)).2 := by
  induction ds generalizing a with
  | nil => exact ⟨rfl, h, rfl⟩
  | cons d ds ih =>
    obtain ⟨ho, hv, hr⟩ := Args.step_sim h d
    obtain ⟨iho, ihv, ihr⟩ := ih _ hv
    refine ⟨?_, ?_, ?_⟩ <;> simp only [Args.run, dRun]
    · rw [ho, iho, hr]
    · exact ihv
    · rw [ihr, hr]

/-! ### The borrowed iterator runs in lockstep with the owned one -/

theorem refs_next_eq (mem : Mem) (a : Args) :
    ArgsRefs.next mem a.as_refs = ((Args.next mem a).1, (Args.next mem a).2.as_refs) := by
  by_cases h0 : a.argc = 0 <;> simp [ArgsRefs.next, Args.next, Args.as_refs, h0]

theorem refs_next_back_eq (mem : Mem) (a : Args) :
    ArgsRefs.next_back mem a.as_refs
      = ((Args.next_back mem a).1, (Args.next_back mem a).2.as_refs) := by
  by_cases h0 : a.argc = 0 <;> simp [ArgsRefs.next_back, Args.next_back, Args.as_refs, h0]

theorem refs_step_eq (mem : Mem) (a : Args) (d : Dir) :
    ArgsRefs.step mem a.as_refs d = ((Args.step mem a d).1, (Args.step mem a d).2.as_refs) := by
  cases d
  · simpa [ArgsRefs.step, Args.step] using refs_next_eq mem a
  · simpa [ArgsRefs.step, Args.step] using refs_next_back_eq mem a

theorem refs_run_eq (mem : Mem) (ds : List Dir) (a : Args) :
    ArgsRefs.run mem ds a.as_refs = ((Args.run mem ds a).1, (Args.run mem ds a).2.as_refs) := by
  induction ds generalizing a with
  | nil => rfl
  | cons d ds ih =>
    simp only [ArgsRefs.run, Args.run, refs_step_eq, ih]

/-- Any `ArgsRefs` state is `as_refs` of the `Args` state with the same fields. -/
theorem refs_eq_as_refs (r : ArgsRefs) : r = (Args.mk r.argc r.argv).as_refs := rfl

/-! ### Facts about the specification-level double-ended sequence -/

theorem dRun_cons (d : Dir) (ds : List Dir) (s : List α) :
    dRun (d :: ds) s
      = ((dStep d s).1 :: (dRun ds (dStep d s).2).1, (dRun ds (dStep d s).2).2) := rfl

theorem dStep_front_cons (x : α) (t : List α) : dStep Dir.front (x :: t) = (some x, t) := by
  simp [dStep]

theorem dStep_back_concat (u : List α) (x : α) : dStep Dir.back (u ++ [x]) = (some x, u) := by
  simp [dStep, List.getLast?_concat]

theorem dRun_fronts (k : Nat) (s : List α) (h : k ≤ s.length) :
    dRun (List.replicate k Dir.front) s = ((s.take k).map some, s.drop k) := by
  induction k generalizing s with
  | zero => simp [dRun]
  | succ k ih =>
    cases s with
    | nil => simp at h
    | cons x t =>
      rw [List.replicate_succ, dRun_cons, dStep_front_cons, ih t (by simp at h; omega)]
      simp

theorem dRun_backs (m : Nat) (s : List α) (h : m ≤ s.length) :
    dRun (List.replicate m Dir.back) s
      = ((s.reverse.take m).map some, (s.reverse.drop m).reverse) := by
  induction m generalizing s with
  | zero => simp [dRun]
  | succ m ih =>
    rcases List.eq_nil_or_concat s with rfl | ⟨u, x, rfl⟩
    · simp at h
    · simp only [List.concat_eq_append] at h ⊢
      rw [List.replicate_succ, dRun_cons, dStep_back_concat, ih u (by simp at h ⊢; omega)]
      simp [List.reverse_concat]

theorem dRun_sound (ds : List Dir) (s : List α) (h : ds.length ≤ s.length) :
    (∀ o ∈ (dRun ds s).1, o.isSome) ∧ (dRun ds s).2.length = s.length - ds.length := by
  induction ds generalizing s with
  | nil => simp [dRun]
  | cons d ds ih =>
    have hne : s ≠ [] := by
      intro e
      subst e
      simp at h
    have hstep : ∃ x, (dStep d s).1 = some x ∧ (dStep d s).2.length = s.length - 1 := by
      cases d
      · cases s with
        | nil => exact absurd rfl hne
        | cons y t => exact ⟨y, rfl, by simp [dStep]⟩
      · rcases List.eq_nil_or_concat s with rfl | ⟨u, x, rfl⟩
        · exact absurd rfl hne
        · refine ⟨x, ?_, ?_⟩ <;>
            simp [dStep, List.concat_eq_append, List.getLast?_concat]
    obtain ⟨x, hx, hlen⟩ := hstep
    have hle : ds.length ≤ (dStep d s).2.length := by
      rw [hlen]
      simp at h
      omega
    obtain ⟨iho, ihl⟩ := ih (dStep d s).2 hle
    refine ⟨?_, ?_⟩
    · intro o ho
      simp only [dRun, List.mem_cons] at ho
      rcases ho with rfl | ho
      · rw [hx]
        rfl
      · exact iho o ho
    · simp only [dRun]
      rw [ihl, hlen]
      simp
      omega

theorem count_front_add_count_back (ds : List Dir) :
    ds.count Dir.front + ds.count Dir.back = ds.length := by
  induction ds with
  | nil => rfl
  | cons d ds ih =>
    cases d <;> simp [List.count_cons] <;> omega

theorem frontOuts_cons_front (ds : List Dir) (o : β) (os : List β) :
    frontOuts (Dir.front :: ds) (o :: os) = o :: frontOuts ds os := by
  simp [frontOuts]

theorem frontOuts_cons_back (ds : List Dir) (o : β) (os : List β) :
    frontOuts (Dir.back :: ds) (o :: os) = frontOuts ds os := by
  simp [frontOuts]

theorem backOuts_cons_front (ds : List Dir) (o : β) (os : List β) :
    backOuts (Dir.front :: ds) (o :: os) = backOuts ds os := by
  simp [backOuts]

theorem backOuts_cons_back (ds : List Dir) (o : β) (os : List β) :
    backOuts (Dir.back :: ds) (o :: os) = o :: backOuts ds os := by
  simp [backOuts]

theorem dRun_interleave (ds : List Dir) (s : List α) (h : ds.length ≤ s.length) :
    frontOuts ds (dRun ds s).1 = (s.take (ds.count Dir.front)).map some
    ∧ backOuts ds (dRun ds s).1
        = ((s.drop (s.length - ds.count Dir.back)).reverse).map some := by
  induction ds generalizing s with
  | nil => simp [dRun, frontOuts, backOuts]
  | cons d ds ih =>
    have hb : ds.count Dir.back ≤ ds.length := List.count_le_length _ _
    have hf : ds.count Dir.front ≤ ds.length := List.count_le_length _ _
    cases d with
    | front =>
      cases s with
      | nil => simp at h
      | cons y t =>
        have ht : ds.length ≤ t.length := by
          simp at h
          omega
        obtain ⟨ihf, ihb⟩ := ih t ht
        rw [dRun_cons, dStep_front_cons]
        constructor
        · rw [frontOuts_cons_front, ihf, List.count_cons_self]
          simp
        · rw [backOuts_cons_front, ihb, List.count_cons_of_ne (by decide)]
          have e1 : (y :: t).length - ds.count Dir.back
              = (t.length - ds.count Dir.back) + 1 := by
            simp
            omega
          rw [e1, List.drop_succ_cons]
    | back =>
      rcases List.eq_nil_or_concat s with rfl | ⟨u, x, rfl⟩
      · simp at h
      · simp only [List.concat_eq_append] at h ⊢
        have hu : ds.length ≤ u.length := by
          simp at h ⊢
          omega
        obtain ⟨ihf, ihb⟩ := ih u hu
        rw [dRun_cons, dStep_back_concat]
        constructor
        · rw [frontOuts_cons_back, ihf, List.count_cons_of_ne (by decide)]
          rw [List.take_append_of_le_length (by omega)]
        · rw [backOuts_cons_back, ihb, List.count_cons_self]
          have e1 : (u ++ [x]).length - (ds.count Dir.back + 1)
              = u.length - ds.count Dir.back := by
            simp
          rw [e1, List.drop_append_of_le_length (by omega), List.reverse_concat]
          simp

/-! ### Behaviour after exhaustion -/

theorem Args.step_none (mem : Mem) (a : Args) (h : a.argc = 0) (d : Dir) :
    Args.step mem a d = (none, a) := by
  cases d <;> simp [Args.step, Args.next, Args.next_back, h]

theorem args_run_exhausted (mem : Mem) (ds : List Dir) (a : Args) (h : a.argc = 0) :
    Args.run mem ds a = (List.replicate ds.length none, a) := by
  induction ds with
  | nil => rfl
  | cons d ds ih =>
    simp only [Args.run, Args.step_none mem a h d, ih, List.length_cons,
      List.replicate_succ]

theorem argsRefs_run_exhausted (mem : Mem) (ds : List Dir) (r : ArgsRefs) (h : r.argc = 0) :
    ArgsRefs.run mem ds r = (List.replicate ds.length none, r) := by
  rw [refs_eq_as_refs r, refs_run_eq, args_run_exhausted mem ds _ h]

/-! ### The collect loop of `inner_debug` -/

theorem collectN_spec (n : Nat) (a : Args) (l : List (List Nat)) (h : a.valid l)
    (hn : a.argc = (n : Int)) :
    ArgsRefs.collectN (memOf l) n a.as_refs = a.remaining l := by
  induction n generalizing a with
  | zero =>
    have hrem : a.remaining l = [] := by simp [Args.remaining, hn]
    simp [ArgsRefs.collectN, hrem]
  | succ n ih =>
    have h0 : a.argc ≠ 0 := by omega
    have hstep : ArgsRefs.next (memOf l) a.as_refs
        = (some (memOf l a.argv), Args.as_refs ⟨a.argc - 1, a.argv + 1⟩) := by
      simp [ArgsRefs.next, Args.as_refs, h0]
    obtain ⟨ho, hv, hr⟩ := Args.next_sim h
    have hnext : Args.next (memOf l) a = (some (memOf l a.argv), ⟨a.argc - 1, a.argv + 1⟩) := by
      simp [Args.next, h0]
    have hh : (a.remaining l).head? = some (memOf l a.argv) := by
      rw [← ho, hnext]
    have hargc : (Args.mk (a.argc - 1) (a.argv + 1)).argc = (n : Int) := by
      show a.argc - 1 = (n : Int)
      omega
    have hv' : (Args.mk (a.argc - 1) (a.argv + 1)).valid l := by
      rw [hnext] at hv
      exact hv
    rw [show ArgsRefs.collectN (memOf l) (n + 1) a.as_refs
        = memOf l a.argv :: ArgsRefs.collectN (memOf l) n (Args.as_refs ⟨a.argc - 1, a.argv + 1⟩)
      from by rw [ArgsRefs.collectN, hstep]]
    rw [ih _ hv' hargc]
    rw [show (Args.mk (a.argc - 1) (a.argv + 1)).remaining l = (a.remaining l).tail
      from by rw [← hr, hnext]]
    exact List.cons_head?_tail hh

/-! ### The isize-to-usize cast on in-range and on negative counts -/

theorem len_eq_toNat {a : Args} (h0 : 0 ≤ a.argc) (h1 : a.argc < (2 : Int) ^ 63) :
    a.len = a.argc.toNat := by
  have e1 : ((2 : Int) ^ 64) = 18446744073709551616 := by norm_num
  have e2 : ((2 : Int) ^ 63) = 9223372036854775808 := by norm_num
  rw [e2] at h1
  rw [Args.len, isizeAsUsize, e1]
  omega

/-! ### The iOS collection loop -/

theorem iosImp.loop_some (env : ObjcEnv) (k i : Nat)
    (h : ∀ j, j < k → utf8Valid (iosImp.argBytes env (i + j)) = true) :
    iosImp.loop env i k
      = some ((List.range k).map fun j => iosImp.argBytes env (i + j)) := by
  induction k generalizing i with
  | zero => simp [iosImp.loop]
  | succ k ih =>
    have h0 : utf8Valid (iosImp.argBytes env i) = true := by
      have := h 0 (by omega)
      simpa using this
    have hrest : ∀ j, j < k → utf8Valid (iosImp.argBytes env (i + 1 + j)) = true := by
      intro j hj
      have := h (j + 1) (by omega)
      rw [show i + (j + 1) = i + 1 + j from by omega] at this
      exact this
    rw [iosImp.loop, ih (i + 1) hrest]
    simp only [h0, if_true, List.range_succ_eq_map, List.map_cons, List.map_map]
    rw [show i + 0 = i from by omega]
    refine congrArg some (congrArg (List.cons _) ?_)
    refine List.map_congr_left ?_
    intro j _
    show iosImp.argBytes env (i + 1 + j) = iosImp.argBytes env (i + (j + 1))
    rw [show i + 1 + j = i + (j + 1) from by omega]

theorem iosImp.loop_none_iff (env : ObjcEnv) (k i : Nat) :
    iosImp.loop env i k = none
      ↔ ∃ j, j < k ∧ utf8Valid (iosImp.argBytes env (i + j)) = false := by
  induction k generalizing i with
  | zero => simp [iosImp.loop]
  | succ k ih =>
    by_cases hb : utf8Valid (iosImp.argBytes env i) = true
    · constructor
      · intro hnone
        rw [iosImp.loop] at hnone
        simp only [hb, if_true] at hnone
        have : iosImp.loop env (i + 1) k = none := by
          rcases hl : iosImp.loop env (i + 1) k with _ | r
          · rfl
          · rw [hl] at hnone
            exact absurd hnone (by simp)
        obtain ⟨j, hj, hv⟩ := (ih (i + 1)).mp this
        exact ⟨j + 1, by omega, by rw [show i + (j + 1) = i + 1 + j from by omega]; exact hv⟩
      · rintro ⟨j, hj, hv⟩
        have hj0 : j ≠ 0 := by
          intro e
          subst e
          rw [show i + 0 = i from by omega] at hv
          rw [hb] at hv
          cases hv
        obtain ⟨j', rfl⟩ : ∃ j', j = j' + 1 := ⟨j - 1, by omega⟩
        have : iosImp.loop env (i + 1) k = none := by
          refine (ih (i + 1)).mpr ⟨j', by omega, ?_⟩
          rw [show i + 1 + j' = i + (j' + 1) from by omega]
          exact hv
        rw [iosImp.loop]
        simp only [hb, if_true, this]
    · have hb' : utf8Valid (iosImp.argBytes env i) = false := by
        cases hv : utf8Valid (iosImp.argBytes env i)
        · rfl
        · exact absurd hv hb
      constructor
      · intro _
        exact ⟨0, by omega, by rw [show i + 0 = i from by omega]; exact hb'⟩
      · intro _
        rw [iosImp.loop]
        simp only [hb', if_false]
        simp

/-! ### The claims -/

/-- C1: for every argument-vector snapshot of length `N ≥ 0` (in the `isize`
range promised by the startup contract), a freshly obtained `Args` (or
`ArgsRefs`) iterator reports `len() = N`; at every intermediate state —
after any sequence of `next`/`next_back` calls — `size_hint()` and `len()`
equal exactly the remaining element count, with lower bound equal to upper
bound; and any sequence of `next`/`next_back` calls totalling `N` yields an
element at every call and exhausts the iterator, the `(N+1)`-th call
returning `None`. -/
theorem claim_c1 (l : List (List Nat)) (hsz : l.length < 2 ^ 63) :
    (Args.ofSnapshot l).len = l.length
    ∧ (Args.ofSnapshot l).as_refs.len = l.length
    ∧ (∀ ds : List Dir,
        (Args.run (memOf l) ds (Args.ofSnapshot l)).2.len
          = ((Args.run (memOf l) ds (Args.ofSnapshot l)).2.remaining l).length
        ∧ Args.size_hint (Args.run (memOf l) ds (Args.ofSnapshot l)).2
          = ((Args.run (memOf l) ds (Args.ofSnapshot l)).2.len,
              some (Args.run (memOf l) ds (Args.ofSnapshot l)).2.len))
    ∧ (∀ ds : List Dir, ds.length = l.length →
        (∀ o ∈ (Args.run (memOf l) ds (Args.ofSnapshot l)).1, o.isSome)
        ∧ (Args.run (memOf l) ds (Args.ofSnapshot l)).2.argc = 0
        ∧ ∀ d : Dir,
            (Args.step (memOf l) (Args.run (memOf l) ds (Args.ofSnapshot l)).2 d).1
              = none) := by
  have hlt : ((l.length : Int)) < (2 : Int) ^ 63 := by exact_mod_cast hsz
  have h1 : (Args.ofSnapshot l).len = l.length := by
    rw [len_eq_toNat (a := Args.ofSnapshot l) (by simp [Args.ofSnapshot]) hlt]
    simp [Args.ofSnapshot]
  refine ⟨h1, h1, ?_, ?_⟩
  · intro ds
    obtain ⟨_, hv, _⟩ := Args.run_sim ds (Args.ofSnapshot l) (valid_ofSnapshot l)
    have hc1 := hv.1
    have hc2 := hv.2.1
    have hc3 := hv.2.2
    refine ⟨?_, rfl⟩
    rw [len_eq_toNat hc1 (by omega), remaining_length hv]
  · intro ds hds
    obtain ⟨ho, hv, hr⟩ := Args.run_sim ds (Args.ofSnapshot l) (valid_ofSnapshot l)
    rw [remaining_ofSnapshot] at ho hr
    have hle : ds.length ≤ l.length := le_of_eq hds
    have hargc : (Args.run (memOf l) ds (Args.ofSnapshot l)).2.argc = 0 := by
      have h2 := (dRun_sound ds l hle).2
      have h3 := remaining_length hv
      rw [hr] at h3
      have hc1 := hv.1
      omega
    refine ⟨?_, hargc, ?_⟩
    · rw [ho]
      exact (dRun_sound ds l hle).1
    · intro d
      rw [Args.step_none (memOf l) _ hargc d]

/-- C1 witness: a snapshot of two arguments has a fresh iterator of length 2. -/
theorem claim_c1_w : (Args.ofSnapshot [[104], [105]]).len = 2 :=
  (claim_c1 [[104], [105]] (by norm_num)).1

/-- C2: for every snapshot and every call sequence of total length `N` made of
`k` `next` calls and `N - k` `next_back` calls in any order, the `next` calls
yield the first `k` elements in original positional order, the `next_back`
calls yield the last `N - k` elements in exact reverse positional order (no
element revisited or skipped), the iterator ends exhausted (`argc = 0`), and
`ArgsRefs` behaves identically. -/
theorem claim_c2 (l : List (List Nat)) (ds : List Dir) (hlen : ds.length = l.length) :
    frontOuts ds (Args.run (memOf l) ds (Args.ofSnapshot l)).1
      = (l.take (ds.count Dir.front)).map some
    ∧ backOuts ds (Args.run (memOf l) ds (Args.ofSnapshot l)).1
      = ((l.drop (ds.count Dir.front)).reverse).map some
    ∧ (Args.run (memOf l) ds (Args.ofSnapshot l)).2.argc = 0
    ∧ (ArgsRefs.run (memOf l) ds (Args.ofSnapshot l).as_refs).1
      = (Args.run (memOf l) ds (Args.ofSnapshot l)).1 := by
  obtain ⟨ho, hv, hr⟩ := Args.run_sim ds (Args.ofSnapshot l) (valid_ofSnapshot l)
  rw [remaining_ofSnapshot] at ho hr
  have hle : ds.length ≤ l.length := le_of_eq hlen
  obtain ⟨hif, hib⟩ := dRun_interleave ds l hle
  have hcount := count_front_add_count_back ds
  have hcb : ds.count Dir.back ≤ ds.length := List.count_le_length _ _
  refine ⟨?_, ?_, ?_, ?_⟩
  · rw [ho]
    exact hif
  · rw [ho, hib]
    have e1 : l.length - ds.count Dir.back = ds.count Dir.front := by omega
    rw [e1]
  · have h2 := (dRun_sound ds l hle).2
    have h3 := remaining_length hv
    rw [hr] at h3
    have hc1 := hv.1
    omega
  · simp [refs_run_eq]

/-- C2 witness: on snapshot `[[1],[2],[3]]` with calls front, back, front, the
front calls yield the first two elements in order. -/
theorem claim_c2_w :
    frontOuts [Dir.front, Dir.back, Dir.front]
        (Args.run (memOf [[1], [2], [3]]) [Dir.front, Dir.back, Dir.front]
          (Args.ofSnapshot [[1], [2], [3]])).1
      = [some [1], some [2]] :=
  (claim_c2 [[1], [2], [3]] [Dir.front, Dir.back, Dir.front] rfl).1

/-- C3: an `Args` iterator and the `ArgsRefs` iterator built over the same
`(count, base)` snapshot yield byte-for-byte identical sequences of values
under every sequence of forward and backward calls, and their cursors stay in
lockstep. -/
theorem claim_c3 (mem : Mem) (ds : List Dir) (a : Args) :
    (ArgsRefs.run mem ds a.as_refs).1 = (Args.run mem ds a).1
    ∧ (ArgsRefs.run mem ds a.as_refs).2 = (Args.run mem ds a).2.as_refs := by
  rw [refs_run_eq]
  exact ⟨rfl, rfl⟩

/-- C4: on the captured-global backend, `cleanup()` sets the stored count to
zero and the stored base pointer to null, and after any `init(count, base)`
followed immediately by `cleanup()`, the public accessor `args()` returns an
iterator with `len() = 0` whose first `next()` (or `next_back()`) returns
`None`. -/
theorem claim_c4 :
    (∀ s : Store, (cleanup s).ARGC = 0 ∧ (cleanup s).ARGV = 0)
    ∧ (∀ (c b : Int) (s : Store) (mem : Mem),
        (args (cleanup (init c b s))).len = 0
        ∧ (Args.next mem (args (cleanup (init c b s)))).1 = none
        ∧ (Args.next_back mem (args (cleanup (init c b s)))).1 = none) := by
  constructor
  · intro s
    exact ⟨rfl, rfl⟩
  · intro c b s mem
    refine ⟨?_, ?_, ?_⟩ <;>
      simp [args, imp.args, cleanup, imp.cleanup, init, imp.init, Args.next,
        Args.next_back, Args.len, isizeAsUsize]

/-- C5: each `next()`/`next_back()` call that yields an element decreases the
count by exactly one, a call that returns `None` leaves the state unchanged,
and for every iterator obtained from a snapshot the invariant
`0 ≤ remaining_count ≤ N` holds after any call sequence. -/
theorem claim_c5 :
    (∀ (mem : Mem) (a : Args) (v : List Nat) (a' : Args),
        Args.next mem a = (some v, a') → a'.argc = a.argc - 1)
    ∧ (∀ (mem : Mem) (a a' : Args), Args.next mem a = (none, a') → a' = a)
    ∧ (∀ (mem : Mem) (a : Args) (v : List Nat) (a' : Args),
        Args.next_back mem a = (some v, a') → a'.argc = a.argc - 1)
    ∧ (∀ (mem : Mem) (a a' : Args), Args.next_back mem a = (none, a') → a' = a)
    ∧ (∀ (l : List (List Nat)) (ds : List Dir),
        0 ≤ (Args.run (memOf l) ds (Args.ofSnapshot l)).2.argc
        ∧ (Args.run (memOf l) ds (Args.ofSnapshot l)).2.argc ≤ (l.length : Int)) := by
  refine ⟨?_, ?_, ?_, ?_, ?_⟩
  · intro mem a v a' h
    rw [Args.next] at h
    split at h
    · injection h with h1 h2
      subst h2
      rfl
    · injection h with h1 h2
      cases h1
  · intro mem a a' h
    rw [Args.next] at h
    split at h
    · injection h with h1 h2
      cases h1
    · injection h with h1 h2
      exact h2.symm
  · intro mem a v a' h
    rw [Args.next_back] at h
    split at h
    · injection h with h1 h2
      subst h2
      rfl
    · injection h with h1 h2
      cases h1
  · intro mem a a' h
    rw [Args.next_back] at h
    split at h
    · injection h with h1 h2
      cases h1
    · injection h with h1 h2
      exact h2.symm
  · intro l ds
    obtain ⟨_, hv, _⟩ := Args.run_sim ds (Args.ofSnapshot l) (valid_ofSnapshot l)
    obtain ⟨hc1, hc2, hc3⟩ := hv
    exact ⟨hc1, by omega⟩

/-- C5 witness: one yielding `next` call on a two-element state decrements the
count from 2 to 1. -/
theorem claim_c5_w : (Args.mk 0 1).argc = (Args.mk 1 0).argc - 1 :=
  claim_c5.1 (fun _ => []) ⟨1, 0⟩ [] ⟨0, 1⟩ (by decide)

/-- C6: an exhausted iterator (count zero) returns `None` on every subsequent
call, in any direction, any number of times, with the state unchanged — both
for `Args` and for `ArgsRefs`. -/
theorem claim_c6 (mem : Mem) (ds : List Dir) (a : Args) (r : ArgsRefs)
    (ha : a.argc = 0) (hr : r.argc = 0) :
    Args.run mem ds a = (List.replicate ds.length none, a)
    ∧ ArgsRefs.run mem ds r = (List.replicate ds.length none, r) :=
  ⟨args_run_exhausted mem ds a ha, argsRefs_run_exhausted mem ds r hr⟩

/-- C6 witness: two further calls on exhausted iterators yield `None` twice and
leave the states unchanged. -/
theorem claim_c6_w :
    Args.run (fun _ => []) [Dir.front, Dir.back] ⟨0, 5⟩ = ([none, none], ⟨0, 5⟩)
    ∧ ArgsRefs.run (fun _ => []) [Dir.front, Dir.back] ⟨0, 7⟩ = ([none, none], ⟨0, 7⟩) :=
  claim_c6 (fun _ => []) [Dir.front, Dir.back] ⟨0, 5⟩ ⟨0, 7⟩ rfl rfl

/-- C9: `as_refs` copies the count and cursor fields unchanged, the debug
accessor `inner_debug` returns the full sequence of borrowed views of the
iterator's arguments in positional order, and the `Args` afterwards yields
exactly those same elements (the model is pure, so the call cannot mutate the
iterator). -/
theorem claim_c9 (l : List (List Nat)) (a : Args) (h : a.valid l) :
    a.as_refs.argc = a.argc
    ∧ a.as_refs.argv = a.argv
    ∧ a.inner_debug (memOf l) = a.remaining l
    ∧ (Args.run (memOf l) (List.replicate a.argc.toNat Dir.front) a).1
      = (a.inner_debug (memOf l)).map some := by
  obtain ⟨hc, hp, hpc⟩ := h
  have hn : a.argc = ((a.argc.toNat : Nat) : Int) := by omega
  have hid : a.inner_debug (memOf l) = a.remaining l := by
    rw [Args.inner_debug]
    exact collectN_spec a.argc.toNat a l ⟨hc, hp, hpc⟩ hn
  refine ⟨rfl, rfl, hid, ?_⟩
  obtain ⟨ho, hv, hr⟩ := Args.run_sim (List.replicate a.argc.toNat Dir.front) a ⟨hc, hp, hpc⟩
  have hrl : (a.remaining l).length = a.argc.toNat := remaining_length ⟨hc, hp, hpc⟩
  rw [ho, hid, dRun_fronts a.argc.toNat (a.remaining l) (le_of_eq hrl.symm)]
  have htake : (a.remaining l).take a.argc.toNat = a.remaining l :=
    List.take_of_length_le (le_of_eq hrl)
  simp [htake]

/-- C9 witness: on a fresh two-element snapshot, `inner_debug` lists both
arguments in order. -/
theorem claim_c9_w :
    (Args.ofSnapshot [[1], [2]]).inner_debug (memOf [[1], [2]]) = [[1], [2]] := by
  have h := (claim_c9 [[1], [2]] (Args.ofSnapshot [[1], [2]])
    ⟨by decide, by decide, by decide⟩).2.2.1
  simpa using h

/-- C10: `next()`/`next_back()` on both iterator types return `None` exactly
when the stored count equals zero (the test is `argc != 0`, not `argc > 0`),
so a strictly negative count is not treated as exhausted; and on a negative
count in the `isize` range, `len()` reinterprets the signed value as the huge
unsigned value `count + 2 ^ 64 ≥ 2 ^ 63`.  The non-negative startup count is
therefore a genuine precondition of the iterator contract. -/
theorem claim_c10 :
    (∀ (mem : Mem) (a : Args), (Args.next mem a).1 = none ↔ a.argc = 0)
    ∧ (∀ (mem : Mem) (a : Args), (Args.next_back mem a).1 = none ↔ a.argc = 0)
    ∧ (∀ (mem : Mem) (r : ArgsRefs), (ArgsRefs.next mem r).1 = none ↔ r.argc = 0)
    ∧ (∀ (mem : Mem) (r : ArgsRefs), (ArgsRefs.next_back mem r).1 = none ↔ r.argc = 0)
    ∧ (∀ a : Args, -(2 : Int) ^ 63 ≤ a.argc → a.argc < 0 →
        a.len = (a.argc + 2 ^ 64).toNat ∧ 2 ^ 63 ≤ a.len)
    ∧ (∀ r : ArgsRefs, -(2 : Int) ^ 63 ≤ r.argc → r.argc < 0 →
        r.len = (r.argc + 2 ^ 64).toNat ∧ 2 ^ 63 ≤ r.len) := by
  have e1 : ((2 : Int) ^ 64) = 18446744073709551616 := by norm_num
  have e2 : ((2 : Int) ^ 63) = 9223372036854775808 := by norm_num
  have e3 : ((2 : Nat) ^ 63) = 9223372036854775808 := by norm_num
  refine ⟨?_, ?_, ?_, ?_, ?_, ?_⟩
  · intro mem a
    by_cases h : a.argc = 0 <;> simp [Args.next, h]
  · intro mem a
    by_cases h : a.argc = 0 <;> simp [Args.next_back, h]
  · intro mem r
    by_cases h : r.argc = 0 <;> simp [ArgsRefs.next, h]
  · intro mem r
    by_cases h : r.argc = 0 <;> simp [ArgsRefs.next_back, h]
  · intro a h1 h2
    rw [e2] at h1
    constructor
    · rw [Args.len, isizeAsUsize, e1]
      omega
    · rw [Args.len, isizeAsUsize, e1, e3]
      omega
  · intro r h1 h2
    rw [e2] at h1
    constructor
    · rw [ArgsRefs.len, isizeAsUsize, e1]
      omega
    · rw [ArgsRefs.len, isizeAsUsize, e1, e3]
      omega

/-- C10 witness: at stored count `-1` the length reports `2 ^ 64 - 1`. -/
theorem claim_c10_w :
    (Args.mk (-1) 0).len = ((-1 : Int) + 2 ^ 64).toNat ∧ 2 ^ 63 ≤ (Args.mk (-1) 0).len :=
  claim_c10.2.2.2.2.1 ⟨-1, 0⟩ (by norm_num) (by norm_num)

/-- C7: on the object-model (iOS) backend, `args()` requests the process
singleton, its arguments collection and the element count, then requests each
element `0 .. count - 1` and converts it to a byte string, collecting all
`count` elements eagerly into an owned sequence: when every element is valid
text, the result is exactly the per-index dispatch values, one per index, in
order. -/
theorem claim_c7 (env : ObjcEnv)
    (h : ∀ i, i < iosImp.cnt env → utf8Valid (iosImp.argBytes env i) = true) :
    iosImp.args env = some ((List.range (iosImp.cnt env)).map (iosImp.argBytes env))
    ∧ ((List.range (iosImp.cnt env)).map (iosImp.argBytes env)).length = iosImp.cnt env := by
  constructor
  · rw [iosImp.args,
      iosImp.loop_some env (iosImp.cnt env) 0 (by intro j hj; simpa using h j hj)]
    refine congrArg some (List.map_congr_left ?_)
    intro j _
    simp
  · simp

/-- C7 witness: an environment whose arguments collection reports two elements,
each reading back the text bytes `"hi"`, collects exactly those two byte
strings. -/
theorem claim_c7_w :
    iosImp.args ⟨fun _ => 0, fun _ => 0, fun _ _ => 2, fun _ _ _ => 0, fun _ => [104, 105]⟩
      = some [[104, 105], [104, 105]] :=
  (claim_c7 ⟨fun _ => 0, fun _ => 0, fun _ _ => 2, fun _ _ _ => 0, fun _ => [104, 105]⟩
    (by intro i _; rfl)).1

/-- C8: on the object-model (iOS) backend, `args()` aborts (returns the fatal
`none` raised by `unwrap`) precisely when some argument in `0 .. count - 1`
has a byte sequence that is not valid UTF-8 text; when every argument is valid
text, no abort occurs. -/
theorem claim_c8 (env : ObjcEnv) :
    iosImp.args env = none
      ↔ ∃ i, i < iosImp.cnt env ∧ utf8Valid (iosImp.argBytes env i) = false := by
  rw [iosImp.args, iosImp.loop_none_iff env (iosImp.cnt env) 0]
  constructor
  · rintro ⟨j, hj, hv⟩
    exact ⟨j, hj, by simpa using hv⟩
  · rintro ⟨i, hi, hv⟩
    exact ⟨i, hi, by simpa using hv⟩

end UnixArgs
